import Mathlib

/-!
Shallow embedding of the selective-extraction and text-normalization core of
the `docreader` repository (files `textcleaner.go` and `helpers.go`, with the
configuration types from `reader.go`), together with theorems settling the
behavioural claims about it.

Go strings are modelled as `List Char` (Go iterates strings rune by rune in
all the code embedded here).  Go `int` is modelled as `Int`.  Go maps
`map[int]bool` used as sets are modelled as `Finset Int`; Go maps
`map[int]pageLineFilter` are modelled as functions `Int → Option pageLineFilter`
built by successive key updates (exactly the observable behaviour of map
assignment and lookup).  The Go library predicate `unicode.IsPrint` is kept
as an explicit function parameter `isPrint`; `unicode.IsSpace` is the fixed,
fully enumerated Unicode White_Space set and is embedded concretely.
-/

namespace DocReader

/-- A Go string, iterated rune by rune. -/
abbrev GoStr := List Char

/-- Embedding of `unicode.IsSpace` from the Go standard library: the Unicode White_Space
property, fully enumerated (Latin-1 cases plus the White_Space code points). -/
def isSpaceGo (c : Char) : Bool :=
  c = ' ' || c = '\t' || c = '\n' || c = (Char.ofNat 0x0B) || c = (Char.ofNat 0x0C) ||
  c = '\r' || c.toNat = 0x85 || c.toNat = 0xA0 || c.toNat = 0x1680 ||
  (0x2000 ≤ c.toNat && c.toNat ≤ 0x200A) ||
  c.toNat = 0x2028 || c.toNat = 0x2029 || c.toNat = 0x202F ||
  c.toNat = 0x205F || c.toNat = 0x3000

/-- The character class `[ \t]` of the regular expression in
`TextCleaner.removeExtraSpaces`. -/
def isSpTab (c : Char) : Bool := c = ' ' || c = '\t'

/-- Structure `TextCleaner` from `textcleaner.go` (field names transliterated). -/
structure TextCleaner where
  removeExtraBlankLines : Bool
  trimSpaces : Bool
  removeExtraSpaces : Bool
  removeControlChars : Bool
  maxConsecutiveBlankLines : Int
deriving DecidableEq

/-- Function `DefaultTextCleaner` from `textcleaner.go`. -/
def DefaultTextCleaner : TextCleaner :=
  { removeExtraBlankLines := true
    trimSpaces := true
    removeExtraSpaces := true
    removeControlChars := true
    maxConsecutiveBlankLines := 1 }

/-- Embedding of `strings.TrimSpace`: drop leading and trailing `unicode.IsSpace` characters. -/
def trimSpace (l : GoStr) : GoStr :=
  ((l.dropWhile isSpaceGo).reverse.dropWhile isSpaceGo).reverse

/-- Worker for `removeExtraSpaces`: replace every maximal run of space/tab
characters by a single space (the effect of `regexp` `[ \t]+` → `" "`).
The boolean flag records whether the previous character belonged to a run. -/
def collapseSpacesAux : Bool → GoStr → GoStr
  | _, [] => []
  | prevSp, c :: rest =>
    if isSpTab c then
      if prevSp then collapseSpacesAux true rest
      else ' ' :: collapseSpacesAux true rest
    else c :: collapseSpacesAux false rest

/-- Function `TextCleaner.removeExtraSpaces` from `textcleaner.go`:
`regexp.MustCompile([ \t]+).ReplaceAllString(text, " ")`. -/
def collapseSpaces (l : GoStr) : GoStr := collapseSpacesAux false l

/-- The character-retention test of `TextCleaner.removeControlChars`:
`unicode.IsPrint(r) || r == '\n' || r == '\t' || r == '\r'`. -/
def keepChar (isPrint : Char → Bool) (c : Char) : Bool :=
  isPrint c || c = '\n' || c = '\t' || c = '\r'

/-- Function `TextCleaner.removeControlChars` from `textcleaner.go`. -/
def removeControlCharsGo (isPrint : Char → Bool) (l : GoStr) : GoStr :=
  l.filter (keepChar isPrint)

/-- Embedding of `strings.ReplaceAll(text, "\r\n", "\n")`: left-to-right, non-overlapping. -/
def replaceCRLF : GoStr → GoStr
  | '\r' :: '\n' :: rest => '\n' :: replaceCRLF rest
  | c :: rest => c :: replaceCRLF rest
  | [] => []

/-- Function `normalizeLineBreaks` from `textcleaner.go`: `\r\n` → `\n`, then `\r` → `\n`
(the second replacement of a single character is a pointwise map). -/
def normalizeLineBreaksGo (l : GoStr) : GoStr :=
  (replaceCRLF l).map (fun c => if c = '\r' then '\n' else c)

/-- Embedding of `strings.Split(text, "\n")` (on the rune `'\n'`). -/
def splitOnNl : List Char → List GoStr
  | [] => [[]]
  | c :: rest =>
    if c = '\n' then [] :: splitOnNl rest
    else (splitOnNl rest).modifyHead (c :: ·)

/-- Embedding of `strings.Join(lines, "\n")`. -/
def joinNl : List GoStr → GoStr
  | [] => []
  | [l] => l
  | l :: ls => l ++ '\n' :: joinNl ls

/-- The per-line transformation applied inside the loop of `TextCleaner.Clean`
(steps: optional `strings.TrimSpace`, optional `removeExtraSpaces` on
non-empty lines). -/
def processLine (tc : TextCleaner) (line : GoStr) : GoStr :=
  let l1 := if tc.trimSpaces then trimSpace line else line
  if tc.removeExtraSpaces = true ∧ l1 ≠ [] then collapseSpaces l1 else l1

/-- The line loop of `TextCleaner.Clean` (`textcleaner.go` lines 51–87):
`count` is `consecutiveBlankLines`; the three `continue` branches are the
three skip conditions of the source, in source order. -/
def cleanLoop (tc : TextCleaner) : Int → List GoStr → List GoStr
  | _, [] => []
  | count, line :: rest =>
    let l := processLine tc line
    if l = [] then
      if tc.maxConsecutiveBlankLines = 0 then cleanLoop tc (count + 1) rest
      else if tc.maxConsecutiveBlankLines > 0 ∧ count + 1 > tc.maxConsecutiveBlankLines then
        cleanLoop tc (count + 1) rest
      else if tc.removeExtraBlankLines = true ∧ count + 1 > 1 ∧ tc.maxConsecutiveBlankLines ≠ -1 then
        cleanLoop tc (count + 1) rest
      else l :: cleanLoop tc (count + 1) rest
    else l :: cleanLoop tc 0 rest

/-- Function `trimEmptyLines` from `textcleaner.go`: drop the leading run and the
trailing run of empty lines. -/
def trimEmptyLines (lines : List GoStr) : List GoStr :=
  ((lines.dropWhile (· = [])).reverse.dropWhile (· = [])).reverse

/-- Function `TextCleaner.Clean` from `textcleaner.go`.  `isPrint` stands for the Go
library predicate `unicode.IsPrint`. -/
def TextCleaner.Clean (tc : TextCleaner) (isPrint : Char → Bool) (text : GoStr) : GoStr :=
  if text = [] then []
  else
    let t1 := if tc.removeControlChars then removeControlCharsGo isPrint text else text
    let t2 := normalizeLineBreaksGo t1
    let lines := splitOnNl t2
    let cleaned := cleanLoop tc 0 lines
    joinNl (trimEmptyLines cleaned)

/-! ### Configuration model and page/line filter resolution (`reader.go`, `helpers.go`)

A `nil *ReadConfig` is `none`; Go nil slices are empty lists (the code only
iterates them or compares them with `nil`/checks `len`, and it never
distinguishes a nil slice from an empty one behaviourally). -/

/-- Structure `Selector` from `reader.go`: discrete indices plus inclusive ranges. -/
structure Selector where
  indexes : List Int
  ranges : List (Int × Int)
deriving DecidableEq

/-- Structure `PageConfig` from `reader.go`. -/
structure PageConfig where
  pageIndex : Int
  lineSelector : Selector
deriving DecidableEq

/-- Structure `ReadConfig` from `reader.go` (the `SheetNames` field plays no part in the
functions embedded here and is omitted). -/
structure ReadConfig where
  pageSelector : Selector
  lineSelector : Selector
  pageConfigs : List PageConfig
deriving DecidableEq

/-- Structure `pageLineFilter` from `helpers.go`: the set of line numbers to read plus
the read-all flag. -/
structure pageLineFilter where
  lines : Finset Int
  readAll : Bool

instance : DecidableEq pageLineFilter := fun a b =>
  decidable_of_iff (a.lines = b.lines ∧ a.readAll = b.readAll)
    (by cases a; cases b; simp)

instance : DecidableEq (Option pageLineFilter) := fun a b =>
  match a, b with
  | none, none => isTrue rfl
  | some x, some y => decidable_of_iff (x = y) (by simp)
  | none, some _ => isFalse (by simp)
  | some _, none => isFalse (by simp)

/-- The `linesSet` construction shared by `buildPageLineMap`,
`buildGlobalLineFilter` and `filterLinesForSinglePage`: insert every
non-negative discrete index, then for each range `[start, end]` insert every
`i` with `max start 0 ≤ i ≤ end` (the Go loop `for i := start; i <= end; i++`
after clamping a negative `start` to `0`). -/
def resolveLineSet (sel : Selector) : Finset Int :=
  let s1 := sel.indexes.foldl (fun s line => if line ≥ 0 then insert line s else s) ∅
  sel.ranges.foldl
    (fun s r =>
      let start := if r.1 < 0 then 0 else r.1
      s ∪ Finset.Icc start r.2) s1

/-- The `pageLineFilter` literal built from a line selector:
`{lines: linesSet, readAll: len(linesSet) == 0}`. -/
def mkLineFilter (sel : Selector) : pageLineFilter :=
  let s := resolveLineSet sel
  { lines := s, readAll := s.card == 0 }

/-- Function `makeAllPagesSlice` from `helpers.go`: `[0, 1, ..., totalPages-1]`. -/
def makeAllPagesSlice (totalPages : Int) : List Int :=
  (List.range totalPages.toNat).map Int.ofNat

/-- Function `determinePagesToRead` from `helpers.go`. -/
def determinePagesToRead (config : Option ReadConfig) (totalPages : Int) : List Int :=
  match config with
  | none => makeAllPagesSlice totalPages
  | some cfg =>
    let s1 := cfg.pageSelector.indexes.foldl
      (fun s p => if p ≥ 0 ∧ p < totalPages then insert p s else s) ∅
    let pagesSet := cfg.pageSelector.ranges.foldl
      (fun s r =>
        let start := if r.1 < 0 then 0 else r.1
        let stop := if r.2 ≥ totalPages then totalPages - 1 else r.2
        s ∪ Finset.Icc start stop) s1
    if pagesSet = ∅ then makeAllPagesSlice totalPages
    else (makeAllPagesSlice totalPages).filter (fun i => i ∈ pagesSet)

/-- Function `buildGlobalLineFilter` from `helpers.go`. -/
def buildGlobalLineFilter (config : Option ReadConfig) : pageLineFilter :=
  match config with
  | none => { lines := ∅, readAll := true }
  | some cfg =>
    if cfg.lineSelector.indexes = [] ∧ cfg.lineSelector.ranges = [] then
      { lines := ∅, readAll := true }
    else mkLineFilter cfg.lineSelector

/-- Assignment `m[key] = v` on a Go `map[int]pageLineFilter`. -/
def mapInsert (m : Int → Option pageLineFilter) (key : Int) (v : pageLineFilter) :
    Int → Option pageLineFilter :=
  fun k => if k = key then some v else m k

/-- One iteration of the `config.PageConfigs` loop in `buildPageLineMap`:
skip an out-of-range `PageIndex`, otherwise store the resolved filter under
that page index. -/
def overrideStep (totalPages : Int) (result : Int → Option pageLineFilter)
    (pc : PageConfig) : Int → Option pageLineFilter :=
  if pc.pageIndex < 0 ∨ pc.pageIndex ≥ totalPages then result
  else mapInsert result pc.pageIndex (mkLineFilter pc.lineSelector)

/-- Function `buildPageLineMap` from `helpers.go`.  The returned function is the Go
map: `none` means the key is absent. -/
def buildPageLineMap (config : Option ReadConfig) (totalPages : Int) :
    Int → Option pageLineFilter :=
  match config with
  | some cfg =>
    if cfg.pageConfigs ≠ [] then
      cfg.pageConfigs.foldl (overrideStep totalPages) (fun _ => none)
    else
      (determinePagesToRead config totalPages).foldl
        (fun result pageIndex => mapInsert result pageIndex (buildGlobalLineFilter config))
        (fun _ => none)
  | none =>
    (determinePagesToRead config totalPages).foldl
      (fun result pageIndex => mapInsert result pageIndex (buildGlobalLineFilter config))
      (fun _ => none)

/-- The loop of `filterLinesForPage`: `for i := 0; i < len(lines); i++`,
retaining `lines[i]` iff `filter.lines[i]`. -/
def filterLinesGo (f : pageLineFilter) : Int → List String → List String
  | _, [] => []
  | i, l :: rest =>
    if i ∈ f.lines then l :: filterLinesGo f (i + 1) rest
    else filterLinesGo f (i + 1) rest

/-- Function `filterLinesForPage` from `helpers.go`. -/
def filterLinesForPage (lines : List String) (f : pageLineFilter) : List String :=
  if f.readAll then lines else filterLinesGo f 0 lines

/-- Function `filterLinesForSinglePage` from `helpers.go`.  The Go loop returns on the
first `PageConfig` with `PageIndex == 0` (hence `find?`); the filter it builds
inline is exactly `mkLineFilter`. -/
def filterLinesForSinglePage (lines : List String) (config : Option ReadConfig) :
    List String :=
  match config with
  | some cfg =>
    if cfg.pageConfigs ≠ [] then
      match cfg.pageConfigs.find? (fun pc => pc.pageIndex == 0) with
      | some pc => filterLinesForPage lines (mkLineFilter pc.lineSelector)
      | none => []
    else
      match buildPageLineMap config 1 0 with
      | some f => filterLinesForPage lines f
      | none => lines
  | none =>
    match buildPageLineMap config 1 0 with
    | some f => filterLinesForPage lines f
    | none => lines

/-! ### Auxiliary definitions for the normalizer proofs -/

/-- The blank-line retention decision of the `Clean` loop, as a function of
the incremented `consecutiveBlankLines` counter `c`: the blank line is kept
iff none of the three `continue` conditions fires. -/
def keepBlankB (tc : TextCleaner) (c : Int) : Bool :=
  if tc.maxConsecutiveBlankLines = 0 then false
  else if tc.maxConsecutiveBlankLines > 0 ∧ c > tc.maxConsecutiveBlankLines then false
  else if tc.removeExtraBlankLines = true ∧ c > 1 ∧ tc.maxConsecutiveBlankLines ≠ -1 then false
  else true

/-- Invariant of a line sequence with respect to the blank-run logic: starting
from counter value `c`, every blank line would be kept by the loop.  A line
sequence satisfying `runsOK tc 0` passes through the loop unchanged. -/
def runsOK (tc : TextCleaner) : Int → List GoStr → Prop
  | _, [] => True
  | c, l :: rest =>
    if l = [] then keepBlankB tc (c + 1) = true ∧ runsOK tc (c + 1) rest
    else runsOK tc 0 rest

/-- The line-sequence pipeline of `Clean` for non-empty input: strip,
canonicalize line breaks, split, loop, boundary-trim (everything but the
final join). -/
def cleanPipeline (tc : TextCleaner) (isPrint : Char → Bool) (text : GoStr) : List GoStr :=
  trimEmptyLines (cleanLoop tc 0 (splitOnNl (normalizeLineBreaksGo
    (if tc.removeControlChars then removeControlCharsGo isPrint text else text))))

/-- A cleaner with `RemoveExtraBlankLines` set and
`MaxConsecutiveBlankLines = -2` (a negative value other than `-1`). -/
def cleanerNegTwo : TextCleaner :=
  { removeExtraBlankLines := true
    trimSpaces := true
    removeExtraSpaces := true
    removeControlChars := true
    maxConsecutiveBlankLines := -2 }

/-- Stand-in for `unicode.IsPrint` in concrete evaluations: accepts every
character (the inputs used contain only printable ASCII anyway). -/
def isPrintAll : Char → Bool := fun _ => true

/-- A per-page override that is in range (page 0 of 1) whose line selector is
non-empty (`Indexes = [-1]`) but resolves to the empty line set. -/
def cexSelectorNeg : ReadConfig :=
  { pageSelector := { indexes := [], ranges := [] }
    lineSelector := { indexes := [], ranges := [] }
    pageConfigs := [{ pageIndex := 0, lineSelector := { indexes := [-1], ranges := [] } }] }

/-- A config whose override list is non-empty but names no page `0`, with a
global line selector that would keep line 0. -/
def cexNoPageZero : ReadConfig :=
  { pageSelector := { indexes := [], ranges := [] }
    lineSelector := { indexes := [0], ranges := [] }
    pageConfigs := [{ pageIndex := 5, lineSelector := { indexes := [0], ranges := [] } }] }

/-- Written from the spec's words for `apply(lines, filter)`: walk line
indices `0..len(lines)-1` in order and retain index `i` iff it is in the
keep-set (pair every line with its index, keep the pairs whose index is
selected, forget the indices). -/
def specFilterLines (lines : List String) (keepSet : Finset Int) : List String :=
  ((lines.enum).filter (fun p => decide ((p.1 : Int) ∈ keepSet))).map Prod.snd

/-- A config whose page selector is non-empty but resolves to no page of a
3-page document: index 5 and range `(7, 9)` are out of range. -/
def cfgOutOfRangePages : ReadConfig :=
  { pageSelector := { indexes := [5], ranges := [(7, 9)] }
    lineSelector := { indexes := [], ranges := [] }
    pageConfigs := [] }

/-! ### Lemmas about the page-filter resolver -/

/-- Unfolding `buildPageLineMap` at a non-nil config. -/
theorem buildPageLineMap_some (cfg : ReadConfig) (tp : Int) :
    buildPageLineMap (some cfg) tp =
      if cfg.pageConfigs ≠ [] then
        cfg.pageConfigs.foldl (overrideStep tp) (fun _ => none)
      else
        (determinePagesToRead (some cfg) tp).foldl
          (fun result pageIndex => mapInsert result pageIndex (buildGlobalLineFilter (some cfg)))
          (fun _ => none) := rfl

/-- Looking up a key outside `[0, totalPages)` after the override fold gives
whatever the starting map held: out-of-range entries are skipped and in-range
entries are stored under their own (in-range) index. -/
theorem foldl_overrideStep_out {tp k : Int} (hk : k < 0 ∨ k ≥ tp) :
    ∀ (l : List PageConfig) (m : Int → Option pageLineFilter),
      (l.foldl (overrideStep tp) m) k = m k := by
  intro l
  induction l with
  | nil => intro m; rfl
  | cons pc rest ih =>
    intro m
    rw [List.foldl_cons, ih]
    unfold overrideStep
    split
    · rfl
    · next hrange =>
      unfold mapInsert
      have : ¬ k = pc.pageIndex := by
        intro h
        subst h
        rcases hk with h' | h' <;> omega
      simp [this]

/-- Looking up an in-range key after the override fold: the last list entry
with that page index wins; if there is none, the starting map decides. -/
theorem foldl_overrideStep_in {tp k : Int} (hk0 : 0 ≤ k) (hk1 : k < tp) :
    ∀ (l : List PageConfig) (m : Int → Option pageLineFilter),
      (l.foldl (overrideStep tp) m) k =
        (l.reverse.find? (fun pc => pc.pageIndex == k)).elim (m k)
          (fun pc => some (mkLineFilter pc.lineSelector)) := by
  intro l
  induction l with
  | nil => intro m; simp
  | cons pc rest ih =>
    intro m
    rw [List.foldl_cons, ih, List.reverse_cons, List.find?_append]
    cases hfind : rest.reverse.find? (fun pc => pc.pageIndex == k) with
    | some e => simp [Option.or]
    | none =>
      simp only [Option.or, Option.elim]
      unfold overrideStep
      split
      · next hrange =>
        have : (pc.pageIndex == k) = false := by
          rcases hrange with h' | h' <;> simp <;> omega
        simp [List.find?, this]
      · next hrange =>
        unfold mapInsert
        by_cases hk : k = pc.pageIndex
        · subst hk
          simp [List.find?]
        · have : (pc.pageIndex == k) = false := by simp; omega
          simp [List.find?, this, hk]

/-- Looking up any key after the global-filter fold yields either the start
map's answer or the shared global filter. -/
theorem foldl_globalInsert (g : pageLineFilter) :
    ∀ (pages : List Int) (m : Int → Option pageLineFilter) (k : Int),
      (pages.foldl (fun result pageIndex => mapInsert result pageIndex g) m) k = m k ∨
      (pages.foldl (fun result pageIndex => mapInsert result pageIndex g) m) k = some g := by
  intro pages
  induction pages with
  | nil => intro m k; left; rfl
  | cons p rest ih =>
    intro m k
    rw [List.foldl_cons]
    rcases ih (mapInsert m p g) k with h | h
    · rw [h]
      unfold mapInsert
      by_cases hk : k = p
      · right; simp [hk]
      · left; simp [hk]
    · right; exact h

/-- The function `mkLineFilter` never produces a filter that reads nothing: if `readAll`
is off, the resolved line set is non-empty. -/
theorem mkLineFilter_readAll_off {sel : Selector}
    (h : (mkLineFilter sel).readAll = false) : (mkLineFilter sel).lines ≠ ∅ := by
  unfold mkLineFilter at *
  simp only [Nat.beq_eq_true_eq, beq_eq_false_iff_ne, ne_eq] at h ⊢
  intro hempty
  exact h (by simp [hempty])

/-- The function `buildGlobalLineFilter` satisfies the same invariant. -/
theorem buildGlobalLineFilter_readAll_off {config : Option ReadConfig}
    (h : (buildGlobalLineFilter config).readAll = false) :
    (buildGlobalLineFilter config).lines ≠ ∅ := by
  unfold buildGlobalLineFilter at *
  cases config with
  | none => simp at h
  | some cfg =>
    by_cases hsel : cfg.lineSelector.indexes = [] ∧ cfg.lineSelector.ranges = []
    · simp [hsel] at h
    · simp only [if_neg hsel] at h ⊢
      exact mkLineFilter_readAll_off h

/-! ### Claim C3 -/

/-- C3 counterexample: the claim says `keepAll ↔ the override's line selector
is empty`.  For the in-range override `{pageIndex 0, Indexes [-1]}` the line
selector is non-empty, yet the resolved filter has `readAll = true`, because
the code sets `readAll := len(linesSet) == 0` and `-1` is discarded by the
`line >= 0` guard.  So the claim, as stated, is false. -/
theorem C3_counterexample :
    buildPageLineMap (some cexSelectorNeg) 1 0 =
      some { lines := ∅, readAll := true } ∧
    cexSelectorNeg.pageConfigs =
      [{ pageIndex := 0, lineSelector := { indexes := [-1], ranges := [] } }] :=
  ⟨by decide, rfl⟩

/-- C3 (amended): for every in-range per-page override, the page appears in
the resolved mapping and its filter satisfies `readAll = true` iff the
*resolved* line-index set is empty (not iff the selector itself is empty). -/
theorem C3_keepAll_iff_resolved_empty (cfg : ReadConfig) (tp : Int)
    (pc : PageConfig) (hmem : pc ∈ cfg.pageConfigs)
    (h0 : 0 ≤ pc.pageIndex) (h1 : pc.pageIndex < tp) :
    ∃ f, buildPageLineMap (some cfg) tp pc.pageIndex = some f ∧
      (f.readAll = true ↔ f.lines = ∅) := by
  have hne : cfg.pageConfigs ≠ [] := List.ne_nil_of_mem hmem
  rw [buildPageLineMap_some, if_pos hne, foldl_overrideStep_in h0 h1]
  have hex : ∃ x ∈ cfg.pageConfigs.reverse, (x.pageIndex == pc.pageIndex) = true := by
    exact ⟨pc, List.mem_reverse.mpr hmem, by simp⟩
  have hsome := List.find?_isSome.mpr hex
  cases hfind : cfg.pageConfigs.reverse.find? (fun x => x.pageIndex == pc.pageIndex) with
  | none => rw [hfind] at hsome; simp at hsome
  | some e =>
    refine ⟨mkLineFilter e.lineSelector, rfl, ?_⟩
    unfold mkLineFilter
    simp only [beq_iff_eq]
    exact ⟨fun h => Finset.card_eq_zero.mp h, fun h => Finset.card_eq_zero.mpr h⟩

/-- C3 witness: instantiating the amended theorem at an override with
`Indexes = [0, 2]` for page 1 of 3. -/
theorem C3_witness :
    (⟨1, ⟨[0, 2], []⟩⟩ : PageConfig) ∈
      [(⟨1, ⟨[0, 2], []⟩⟩ : PageConfig)] ∧
    ∃ f, buildPageLineMap
        (some { pageSelector := ⟨[], []⟩, lineSelector := ⟨[], []⟩,
                pageConfigs := [⟨1, ⟨[0, 2], []⟩⟩] }) 3 (1 : Int) = some f ∧
      (f.readAll = true ↔ f.lines = ∅) :=
  ⟨List.mem_singleton.mpr rfl,
    C3_keepAll_iff_resolved_empty
      { pageSelector := ⟨[], []⟩, lineSelector := ⟨[], []⟩,
        pageConfigs := [⟨1, ⟨[0, 2], []⟩⟩] } 3 ⟨1, ⟨[0, 2], []⟩⟩
      (List.mem_singleton.mpr rfl) (by decide) (by decide)⟩

/-! ### Claim C5 -/

/-- C5: with a non-empty per-page override list, the resolved mapping
contains a key `k` exactly when some override names `k` and `k` is in
`[0, totalPages)`: out-of-range overrides are dropped silently and unnamed
pages are absent. -/
theorem C5_override_mapping_domain (cfg : ReadConfig) (tp k : Int)
    (hne : cfg.pageConfigs ≠ []) :
    (buildPageLineMap (some cfg) tp k).isSome = true ↔
      ((∃ pc ∈ cfg.pageConfigs, pc.pageIndex = k) ∧ 0 ≤ k ∧ k < tp) := by
  rw [buildPageLineMap_some, if_pos hne]
  by_cases hk : 0 ≤ k ∧ k < tp
  · rw [foldl_overrideStep_in hk.1 hk.2]
    cases hfind : cfg.pageConfigs.reverse.find? (fun pc => pc.pageIndex == k) with
    | none =>
      simp only [Option.elim, Option.isSome_none]
      constructor
      · intro h; cases h
      · rintro ⟨⟨pc, hmem, hpc⟩, -⟩
        have := List.find?_eq_none.mp hfind pc (List.mem_reverse.mpr hmem)
        simp [hpc] at this
    | some e =>
      simp only [Option.elim, Option.isSome_some, true_iff]
      refine ⟨?_, hk.1, hk.2⟩
      have hpe := List.find?_some hfind
      have hmem := List.mem_reverse.mp (List.mem_of_find?_eq_some hfind)
      exact ⟨_, hmem, by simpa using hpe⟩
  · have hk' : k < 0 ∨ k ≥ tp := by omega
    rw [foldl_overrideStep_out hk']
    simp only [Option.isSome_none, Bool.false_eq_true, false_iff]
    rintro ⟨-, h0, h1⟩
    exact hk ⟨h0, h1⟩

/-- C5 witness: an override list naming only page 1 against 3 pages — page 1
is present, and (by the `mpr` direction at page 0 via `decide` on the side
facts) the equivalence holds at a concrete instance. -/
theorem C5_witness :
    ([(⟨1, ⟨[0, 2], []⟩⟩ : PageConfig)] ≠ ([] : List PageConfig)) ∧
    ((buildPageLineMap
        (some { pageSelector := ⟨[], []⟩, lineSelector := ⟨[], []⟩,
                pageConfigs := [⟨1, ⟨[0, 2], []⟩⟩] }) 3 1).isSome = true ↔
      ((∃ pc ∈ [(⟨1, ⟨[0, 2], []⟩⟩ : PageConfig)], pc.pageIndex = 1) ∧
        (0 : Int) ≤ 1 ∧ (1 : Int) < 3)) :=
  ⟨by decide,
    C5_override_mapping_domain
      { pageSelector := ⟨[], []⟩, lineSelector := ⟨[], []⟩,
        pageConfigs := [⟨1, ⟨[0, 2], []⟩⟩] } 3 1 (by decide)⟩

/-! ### Claim C6 -/

/-- C6: for an in-range page index, the resolved mapping holds exactly the
filter of the *last* override in list order with that page index (overwrite
semantics — never a union of selectors). -/
theorem C6_last_override_wins (cfg : ReadConfig) (tp k : Int)
    (hne : cfg.pageConfigs ≠ []) (h0 : 0 ≤ k) (h1 : k < tp) :
    buildPageLineMap (some cfg) tp k =
      (cfg.pageConfigs.reverse.find? (fun pc => pc.pageIndex == k)).map
        (fun pc => mkLineFilter pc.lineSelector) := by
  rw [buildPageLineMap_some, if_pos hne, foldl_overrideStep_in h0 h1]
  cases cfg.pageConfigs.reverse.find? (fun pc => pc.pageIndex == k) <;> rfl

/-- C6 witness: two overrides for page 0 — the mapping holds the filter of
the second (line 2), not the union `{1, 2}`. -/
theorem C6_witness :
    ([(⟨0, ⟨[1], []⟩⟩ : PageConfig), ⟨0, ⟨[2], []⟩⟩] ≠ ([] : List PageConfig)) ∧
    buildPageLineMap
        (some { pageSelector := ⟨[], []⟩, lineSelector := ⟨[], []⟩,
                pageConfigs := [⟨0, ⟨[1], []⟩⟩, ⟨0, ⟨[2], []⟩⟩] }) 1 0 =
      (([(⟨0, ⟨[1], []⟩⟩ : PageConfig), ⟨0, ⟨[2], []⟩⟩].reverse.find?
          (fun pc => pc.pageIndex == 0)).map
        (fun pc => mkLineFilter pc.lineSelector)) :=
  ⟨by decide,
    C6_last_override_wins
      { pageSelector := ⟨[], []⟩, lineSelector := ⟨[], []⟩,
        pageConfigs := [⟨0, ⟨[1], []⟩⟩, ⟨0, ⟨[2], []⟩⟩] } 1 0
      (by decide) (by decide) (by decide)⟩

/-! ### Claim C10 -/

/-- C10: every filter stored in a resolver mapping, and the shared filter
`buildGlobalLineFilter` produces, satisfies: if `readAll` is false then the
line keep-set is non-empty. -/
theorem C10_no_empty_keepset :
    (∀ (config : Option ReadConfig) (tp k : Int) (f : pageLineFilter),
      buildPageLineMap config tp k = some f → f.readAll = false → f.lines ≠ ∅) ∧
    (∀ config : Option ReadConfig,
      (buildGlobalLineFilter config).readAll = false →
        (buildGlobalLineFilter config).lines ≠ ∅) := by
  constructor
  · intro config tp k f hmap hoff
    have hglobal :
        ∀ (pages : List Int) (cfg' : Option ReadConfig),
          ((pages.foldl
            (fun result pageIndex => mapInsert result pageIndex (buildGlobalLineFilter cfg'))
            (fun _ => none)) k = some f) → f.lines ≠ ∅ := by
      intro pages cfg' hfold
      rcases foldl_globalInsert (buildGlobalLineFilter cfg') pages (fun _ => none) k with h | h
      · rw [hfold] at h; cases h
      · rw [hfold] at h
        have : f = buildGlobalLineFilter cfg' := by
          injection h.symm with h'; exact h'.symm
        subst this
        exact buildGlobalLineFilter_readAll_off hoff
    cases config with
    | none => exact hglobal _ _ hmap
    | some cfg =>
      rw [buildPageLineMap_some] at hmap
      by_cases hne : cfg.pageConfigs ≠ []
      · rw [if_pos hne] at hmap
        by_cases hk : 0 ≤ k ∧ k < tp
        · rw [foldl_overrideStep_in hk.1 hk.2] at hmap
          cases hfind : cfg.pageConfigs.reverse.find? (fun pc => pc.pageIndex == k) with
          | none => rw [hfind] at hmap; cases hmap
          | some e =>
            rw [hfind] at hmap
            simp only [Option.elim, Option.some.injEq] at hmap
            subst hmap
            exact mkLineFilter_readAll_off hoff
        · have hk' : k < 0 ∨ k ≥ tp := by omega
          rw [foldl_overrideStep_out hk'] at hmap
          cases hmap
      · rw [if_neg hne] at hmap
        exact hglobal _ _ hmap
  · intro config hoff
    exact buildGlobalLineFilter_readAll_off hoff

/-- C10 witness: the global line selector `Indexes = [2]` yields, at page 0
of a 1-page document, the filter `{lines: {2}, readAll: false}`; by the
theorem its keep-set is non-empty, and so is the shared global filter's. -/
theorem C10_witness :
    (pageLineFilter.mk {2} false).lines ≠ ∅ ∧
    (buildGlobalLineFilter
        (some { pageSelector := ⟨[], []⟩, lineSelector := ⟨[2], []⟩,
                pageConfigs := [] })).lines ≠ ∅ :=
  ⟨C10_no_empty_keepset.1
      (some { pageSelector := ⟨[], []⟩, lineSelector := ⟨[2], []⟩, pageConfigs := [] })
      1 0 (pageLineFilter.mk {2} false) (by decide) rfl,
    C10_no_empty_keepset.2
      (some { pageSelector := ⟨[], []⟩, lineSelector := ⟨[2], []⟩, pageConfigs := [] })
      (by decide)⟩

/-! ### Claim C4 -/

/-- C4 counterexample: the claim says that with a non-empty override list
lacking an entry for page 0, single-page filtering falls back to the global
line selector.  It does not: `filterLinesForSinglePage` returns the empty
line list, while the claimed fallback would have kept line 0 (`"a"`). -/
theorem C4_counterexample :
    filterLinesForSinglePage ["a", "b"] (some cexNoPageZero) = [] ∧
    filterLinesForPage ["a", "b"] (buildGlobalLineFilter (some cexNoPageZero)) = ["a"] ∧
    filterLinesForSinglePage ["a", "b"] (some cexNoPageZero) ≠
      filterLinesForPage ["a", "b"] (buildGlobalLineFilter (some cexNoPageZero)) :=
  ⟨by decide, by decide, by decide⟩

/-- C4 (amended): when the per-page override list is non-empty but contains
no entry for page index 0, `filterLinesForSinglePage` returns the empty line
list — there is no fallback to the global line selector (the fallback exists
only when the override list is empty). -/
theorem C4_no_fallback_returns_empty (cfg : ReadConfig) (lines : List String)
    (hne : cfg.pageConfigs ≠ []) (h0 : ∀ pc ∈ cfg.pageConfigs, pc.pageIndex ≠ 0) :
    filterLinesForSinglePage lines (some cfg) = [] := by
  have hfind : cfg.pageConfigs.find? (fun pc => pc.pageIndex == 0) = none := by
    apply List.find?_eq_none.mpr
    intro pc hmem
    simp [h0 pc hmem]
  show (if cfg.pageConfigs ≠ [] then _ else _) = []
  rw [if_pos hne, hfind]

/-- C4 witness: the amended theorem at the concrete config above. -/
theorem C4_witness :
    (cexNoPageZero.pageConfigs ≠ [] ∧ ∀ pc ∈ cexNoPageZero.pageConfigs, pc.pageIndex ≠ 0) ∧
    filterLinesForSinglePage ["a", "b"] (some cexNoPageZero) = [] :=
  ⟨⟨by decide, by decide⟩,
    C4_no_fallback_returns_empty cexNoPageZero ["a", "b"] (by decide) (by decide)⟩

/-! ### Claim C7 -/

/-- The index-carrying loop of `filterLinesForPage` computes the enumerate-
filter-project description, from any starting index. -/
theorem filterLinesGo_eq_enumFrom (f : pageLineFilter) :
    ∀ (ls : List String) (n : Nat),
      filterLinesGo f (n : Int) ls =
        ((ls.enumFrom n).filter (fun p => decide ((p.1 : Int) ∈ f.lines))).map Prod.snd := by
  intro ls
  induction ls with
  | nil => intro n; rfl
  | cons l rest ih =>
    intro n
    have hcast : (n : Int) + 1 = ((n + 1 : Nat) : Int) := by push_cast; ring
    by_cases h : (n : Int) ∈ f.lines
    · simp only [filterLinesGo, if_pos h, hcast, ih (n + 1), List.enumFrom]
      simp [h]
    · simp only [filterLinesGo, if_neg h, hcast, ih (n + 1), List.enumFrom]
      simp [h]

/-- C7: applying a filter returns the input unchanged when `readAll` is set,
and otherwise exactly the lines whose index is in the keep-set, in order
(indices at or beyond the length are vacuously excluded); the result is
never longer than the input. -/
theorem C7_filterLinesForPage_spec (lines : List String) (f : pageLineFilter) :
    filterLinesForPage lines f =
      (if f.readAll = true then lines else specFilterLines lines f.lines) ∧
    (filterLinesForPage lines f).length ≤ lines.length := by
  have heq : filterLinesForPage lines f =
      (if f.readAll = true then lines else specFilterLines lines f.lines) := by
    unfold filterLinesForPage specFilterLines
    by_cases h : f.readAll = true
    · simp [h]
    · simp only [if_neg h]
      have := filterLinesGo_eq_enumFrom f lines 0
      simpa [List.enum] using this
  refine ⟨heq, ?_⟩
  rw [heq]
  by_cases h : f.readAll = true
  · simp [h]
  · simp only [if_neg h]
    unfold specFilterLines
    calc (((lines.enum).filter _).map Prod.snd).length
        = ((lines.enum).filter _).length := List.length_map _ _
      _ ≤ (lines.enum).length := List.length_filter_le _ _
      _ = lines.length := List.enum_length

/-! ### Claim C9 -/

/-- The discrete-page fold adds nothing when every index is out of range. -/
theorem foldl_pageIndexes_skip {tp : Int} :
    ∀ (idxs : List Int) (s : Finset Int),
      (∀ i ∈ idxs, i < 0 ∨ tp ≤ i) →
      idxs.foldl (fun s p => if p ≥ 0 ∧ p < tp then insert p s else s) s = s := by
  intro idxs
  induction idxs with
  | nil => intro s _; rfl
  | cons i rest ih =>
    intro s h
    rw [List.foldl_cons]
    have hi := h i (List.mem_cons_self i rest)
    have : ¬ (i ≥ 0 ∧ i < tp) := by omega
    rw [if_neg this]
    exact ih s (fun j hj => h j (List.mem_cons_of_mem i hj))

/-- The range fold adds nothing when every range misses `[0, totalPages)`
entirely (ends below 0, starts at or after `totalPages`, or is inverted). -/
theorem foldl_pageRanges_skip {tp : Int} (htp : 0 < tp) :
    ∀ (rs : List (Int × Int)) (s : Finset Int),
      (∀ r ∈ rs, r.2 < 0 ∨ tp ≤ r.1 ∨ r.2 < r.1) →
      rs.foldl
        (fun s r =>
          let start := if r.1 < 0 then 0 else r.1
          let stop := if r.2 ≥ tp then tp - 1 else r.2
          s ∪ Finset.Icc start stop) s = s := by
  intro rs
  induction rs with
  | nil => intro s _; rfl
  | cons r rest ih =>
    intro s h
    rw [List.foldl_cons]
    have hr := h r (List.mem_cons_self r rest)
    have hempty :
        Finset.Icc (if r.1 < 0 then 0 else r.1) (if r.2 ≥ tp then tp - 1 else r.2) = ∅ := by
      apply Finset.Icc_eq_empty
      intro hle
      rcases hr with h' | h' | h' <;> split_ifs at hle <;> omega
    show List.foldl _
        (s ∪ Finset.Icc (if r.1 < 0 then 0 else r.1) (if r.2 ≥ tp then tp - 1 else r.2))
        rest = s
    rw [hempty, Finset.union_empty]
    exact ih s (fun j hj => h j (List.mem_cons_of_mem r hj))

/-- C9: a page selector that is syntactically non-empty but resolves to the
empty page set (every discrete index out of range, every range missing
`[0, totalPages)`) makes `determinePagesToRead` return all pages — the
default-open fallback fires on an empty *resolved* set, not on an empty
selector. -/
theorem C9_empty_resolved_set_reads_all (cfg : ReadConfig) (tp : Int) (htp : 0 < tp)
    (hsel : cfg.pageSelector.indexes ≠ [] ∨ cfg.pageSelector.ranges ≠ [])
    (hidx : ∀ i ∈ cfg.pageSelector.indexes, i < 0 ∨ tp ≤ i)
    (hrg : ∀ r ∈ cfg.pageSelector.ranges, r.2 < 0 ∨ tp ≤ r.1 ∨ r.2 < r.1) :
    determinePagesToRead (some cfg) tp = makeAllPagesSlice tp := by
  show (let s1 := cfg.pageSelector.indexes.foldl
          (fun s p => if p ≥ 0 ∧ p < tp then insert p s else s) ∅
        let pagesSet := cfg.pageSelector.ranges.foldl
          (fun s r =>
            let start := if r.1 < 0 then 0 else r.1
            let stop := if r.2 ≥ tp then tp - 1 else r.2
            s ∪ Finset.Icc start stop) s1
        if pagesSet = ∅ then makeAllPagesSlice tp
        else (makeAllPagesSlice tp).filter (fun i => i ∈ pagesSet)) = makeAllPagesSlice tp
  simp only [foldl_pageIndexes_skip cfg.pageSelector.indexes ∅ hidx,
    foldl_pageRanges_skip htp cfg.pageSelector.ranges ∅ hrg]
  simp

/-- C9 witness: page selector `Indexes = [5]`, `Ranges = [(7, 9)]` against a
3-page document resolves to nothing, and all pages `[0, 1, 2]` are read. -/
theorem C9_witness :
    ((0 : Int) < 3 ∧
      (cfgOutOfRangePages.pageSelector.indexes ≠ [] ∨
        cfgOutOfRangePages.pageSelector.ranges ≠ [])) ∧
    determinePagesToRead (some cfgOutOfRangePages) 3 = makeAllPagesSlice 3 :=
  ⟨⟨by decide, by decide⟩,
    C9_empty_resolved_set_reads_all cfgOutOfRangePages 3
      (by decide) (by decide) (by decide) (by decide)⟩

/-! ### Generic list helpers -/

/-- A `cons` on a non-empty list does not change `getLast?`. -/
theorem getLast?_cons_ne {α : Type} (x : α) (l : List α) (h : l ≠ []) :
    (x :: l).getLast? = l.getLast? := by
  cases l with
  | nil => exact absurd rfl h
  | cons y ys => exact List.getLast?_cons_cons

/-- A list with a `getLast?` value is non-empty. -/
theorem ne_nil_of_getLast?_some {α : Type} {l : List α} {a : α}
    (h : l.getLast? = some a) : l ≠ [] := by
  cases l with
  | nil => simp at h
  | cons y ys => simp

/-- The head of a `dropWhile` result fails the predicate. -/
theorem dropWhile_head?_not {α : Type} {p : α → Bool} :
    ∀ {l : List α} {a : α}, (List.dropWhile p l).head? = some a → p a = false := by
  intro l
  induction l with
  | nil => intro a h; simp at h
  | cons c rest ih =>
    intro a h
    rw [List.dropWhile_cons] at h
    by_cases hc : p c = true
    · rw [if_pos hc] at h
      exact ih h
    · rw [if_neg hc] at h
      simp only [List.head?_cons, Option.some.injEq] at h
      subst h
      simpa using hc

/-- Dropping while a predicate holds is the identity when the head (if any) fails the predicate. -/
theorem dropWhile_eq_self_of_head {α : Type} {p : α → Bool} {l : List α}
    (h : ∀ a, l.head? = some a → p a = false) : List.dropWhile p l = l := by
  cases l with
  | nil => rfl
  | cons c rest =>
    rw [List.dropWhile_cons, if_neg]
    simp [h c rfl]

/-! ### Space collapsing (`removeExtraSpaces`) -/

/-- The space/tab class is contained in the white-space class. -/
theorem isSpTab_isSpaceGo {c : Char} (h : isSpTab c = true) : isSpaceGo c = true := by
  simp only [isSpTab, Bool.or_eq_true, decide_eq_true_eq] at h
  rcases h with h | h <;> subst h <;> decide

/-- One step of `collapseSpacesAux`. -/
theorem collapseSpacesAux_cons (b : Bool) (c : Char) (rest : GoStr) :
    collapseSpacesAux b (c :: rest) =
      if isSpTab c then
        (if b then collapseSpacesAux true rest else ' ' :: collapseSpacesAux true rest)
      else c :: collapseSpacesAux false rest := rfl

/-- Collapsing space runs is idempotent (for either value of the
previous-character flag). -/
theorem collapseSpacesAux_idem : ∀ (l : GoStr) (b : Bool),
    collapseSpacesAux b (collapseSpacesAux b l) = collapseSpacesAux b l := by
  intro l
  induction l with
  | nil => intro b; rfl
  | cons c rest ih =>
    intro b
    by_cases hc : isSpTab c = true
    · cases b with
      | true =>
        simp only [collapseSpacesAux, hc, if_true]
        exact ih true
      | false =>
        have hsp : isSpTab ' ' = true := by decide
        simp only [collapseSpacesAux, hc, if_true, Bool.false_eq_true, if_false, hsp]
        rw [ih true]
    · simp only [collapseSpacesAux, hc, Bool.false_eq_true, if_false, if_neg]
      rw [ih false]

/-- Collapsing spaces twice equals collapsing once. -/
theorem collapseSpaces_idem (l : GoStr) :
    collapseSpaces (collapseSpaces l) = collapseSpaces l :=
  collapseSpacesAux_idem l false

/-- Collapsing never empties a non-empty line. -/
theorem collapseSpaces_ne_nil {l : GoStr} (h : l ≠ []) : collapseSpaces l ≠ [] := by
  unfold collapseSpaces
  cases l with
  | nil => exact absurd rfl h
  | cons c rest =>
    by_cases hc : isSpTab c = true <;> simp [collapseSpacesAux, hc]

/-- Every character of a collapsed line is an original character or the
replacement space. -/
theorem mem_collapseSpacesAux : ∀ (l : GoStr) (b : Bool) (c : Char),
    c ∈ collapseSpacesAux b l → c ∈ l ∨ c = ' ' := by
  intro l
  induction l with
  | nil => intro b c h; simp [collapseSpacesAux] at h
  | cons d rest ih =>
    intro b c h
    by_cases hd : isSpTab d = true
    · cases b with
      | true =>
        simp only [collapseSpacesAux, hd, if_true] at h
        rcases ih true c h with h' | h'
        · exact Or.inl (List.mem_cons_of_mem d h')
        · exact Or.inr h'
      | false =>
        simp only [collapseSpacesAux, hd, if_true, Bool.false_eq_true, if_false] at h
        rcases List.mem_cons.mp h with h' | h'
        · exact Or.inr h'
        · rcases ih true c h' with h'' | h''
          · exact Or.inl (List.mem_cons_of_mem d h'')
          · exact Or.inr h''
    · simp only [collapseSpacesAux, hd, Bool.false_eq_true, if_false] at h
      rcases List.mem_cons.mp h with h' | h'
      · exact Or.inl (h' ▸ List.mem_cons_self d rest)
      · rcases ih false c h' with h'' | h''
        · exact Or.inl (List.mem_cons_of_mem d h'')
        · exact Or.inr h''

/-- Collapsing preserves a final character that is not a space or tab. -/
theorem collapseSpacesAux_getLast? : ∀ (l : GoStr) (b : Bool) (d : Char),
    l.getLast? = some d → isSpTab d = false →
    (collapseSpacesAux b l).getLast? = some d := by
  intro l
  induction l with
  | nil => intro b d h _; simp at h
  | cons c rest ih =>
    intro b d h hd
    cases rest with
    | nil =>
      simp only [List.getLast?_singleton, Option.some.injEq] at h
      subst h
      have hc : isSpTab c = false := hd
      simp [collapseSpacesAux, hc]
    | cons r rs =>
      rw [List.getLast?_cons_cons] at h
      by_cases hc : isSpTab c = true
      · cases b with
        | true =>
          rw [collapseSpacesAux_cons, if_pos hc, if_pos rfl]
          exact ih true d h hd
        | false =>
          rw [collapseSpacesAux_cons, if_pos hc, if_neg (by simp)]
          have h1 := ih true d h hd
          rw [getLast?_cons_ne _ _ (ne_nil_of_getLast?_some h1), h1]
      · rw [collapseSpacesAux_cons, if_neg hc]
        have h1 := ih false d h hd
        rw [getLast?_cons_ne _ _ (ne_nil_of_getLast?_some h1), h1]

/-- Collapsing preserves a leading character that is not a space or tab. -/
theorem collapseSpaces_head? {l : GoStr} {c : Char} (h : l.head? = some c)
    (hc : isSpTab c = false) : (collapseSpaces l).head? = some c := by
  cases l with
  | nil => simp at h
  | cons d rest =>
    simp only [List.head?_cons, Option.some.injEq] at h
    subst h
    unfold collapseSpaces
    simp [collapseSpacesAux, hc]

/-! ### Trimming (`strings.TrimSpace`) -/

/-- The head of a trimmed line is not white space. -/
theorem trimSpace_head? {l : GoStr} {c : Char}
    (h : (trimSpace l).head? = some c) : isSpaceGo c = false := by
  unfold trimSpace at h
  set A := l.dropWhile isSpaceGo with hA
  set B := A.reverse.dropWhile isSpaceGo with hB
  have hBne : B.reverse ≠ [] := by
    intro hnil
    rw [hnil] at h
    simp at h
  have h0 : A.reverse.takeWhile isSpaceGo ++ B = A.reverse := by
    rw [hB]; exact List.takeWhile_append_dropWhile isSpaceGo A.reverse
  have hdecomp : A = B.reverse ++ (A.reverse.takeWhile isSpaceGo).reverse := by
    calc A = A.reverse.reverse := (List.reverse_reverse A).symm
      _ = (A.reverse.takeWhile isSpaceGo ++ B).reverse := by rw [h0]
      _ = B.reverse ++ (A.reverse.takeWhile isSpaceGo).reverse := by
          rw [List.reverse_append]
  have hheadA : A.head? = some c := by
    rw [hdecomp, List.head?_append_of_ne_nil _ hBne]
    exact h
  exact dropWhile_head?_not (p := isSpaceGo) (l := l) (by rw [← hA]; exact hheadA)

/-- The last character of a trimmed line is not white space. -/
theorem trimSpace_getLast? {l : GoStr} {c : Char}
    (h : (trimSpace l).getLast? = some c) : isSpaceGo c = false := by
  unfold trimSpace at h
  rw [List.getLast?_reverse] at h
  exact dropWhile_head?_not h

/-- Trimming is the identity on a line whose first and last characters are
not white space. -/
theorem trimSpace_eq_self {l : GoStr}
    (hh : ∀ c, l.head? = some c → isSpaceGo c = false)
    (hl : ∀ c, l.getLast? = some c → isSpaceGo c = false) : trimSpace l = l := by
  unfold trimSpace
  rw [dropWhile_eq_self_of_head hh,
    dropWhile_eq_self_of_head (fun c hc => hl c (by rwa [List.head?_reverse] at hc)),
    List.reverse_reverse]

/-- Trimming is idempotent. -/
theorem trimSpace_idem (l : GoStr) : trimSpace (trimSpace l) = trimSpace l :=
  trimSpace_eq_self (fun _ h => trimSpace_head? h) (fun _ h => trimSpace_getLast? h)

/-- Characters of a trimmed line are characters of the line. -/
theorem mem_trimSpace {l : GoStr} {c : Char} (h : c ∈ trimSpace l) : c ∈ l := by
  unfold trimSpace at h
  rw [List.mem_reverse] at h
  have h1 := (List.dropWhile_sublist (l := (l.dropWhile isSpaceGo).reverse)
    (p := isSpaceGo)).subset h
  rw [List.mem_reverse] at h1
  exact (List.dropWhile_sublist (l := l) (p := isSpaceGo)).subset h1

/-- Trimming the empty line gives the empty line. -/
theorem trimSpace_nil : trimSpace [] = [] := rfl

/-! ### The per-line transformation -/

/-- The empty line is a fixed point of the per-line transformation. -/
theorem processLine_nil (tc : TextCleaner) : processLine tc [] = [] := by
  unfold processLine
  by_cases htr : tc.trimSpaces = true <;> simp [htr, trimSpace_nil]

/-- The per-line transformation (trim, then collapse) is idempotent. -/
theorem processLine_idem (tc : TextCleaner) (l : GoStr) :
    processLine tc (processLine tc l) = processLine tc l := by
  by_cases htr : tc.trimSpaces = true <;> by_cases hre : tc.removeExtraSpaces = true
  · -- trim and collapse
    by_cases ht : trimSpace l = []
    · have h1 : processLine tc l = [] := by
        unfold processLine; simp [htr, ht]
      rw [h1]
      exact processLine_nil tc
    · have h1 : processLine tc l = collapseSpaces (trimSpace l) := by
        unfold processLine; simp [htr, hre, ht]
      rw [h1]
      have hmne : collapseSpaces (trimSpace l) ≠ [] := collapseSpaces_ne_nil ht
      have htrim : trimSpace (collapseSpaces (trimSpace l)) = collapseSpaces (trimSpace l) := by
        apply trimSpace_eq_self
        · intro c hc
          cases hhead : (trimSpace l).head? with
          | none =>
            rw [List.head?_eq_none_iff] at hhead
            exact absurd hhead ht
          | some c₀ =>
            have hc₀ : isSpaceGo c₀ = false := trimSpace_head? hhead
            have hc₀' : isSpTab c₀ = false := by
              cases hsp : isSpTab c₀
              · rfl
              · rw [isSpTab_isSpaceGo hsp] at hc₀; cases hc₀
            have hh := collapseSpaces_head? hhead hc₀'
            rw [hh] at hc
            injection hc with hc
            subst hc
            exact hc₀
        · intro c hc
          cases hlast : (trimSpace l).getLast? with
          | none =>
            rw [List.getLast?_eq_none_iff] at hlast
            exact absurd hlast ht
          | some c₀ =>
            have hc₀ : isSpaceGo c₀ = false := trimSpace_getLast? hlast
            have hc₀' : isSpTab c₀ = false := by
              cases hsp : isSpTab c₀
              · rfl
              · rw [isSpTab_isSpaceGo hsp] at hc₀; cases hc₀
            have hh := collapseSpacesAux_getLast? (trimSpace l) false c₀ hlast hc₀'
            rw [(by rfl : collapseSpaces (trimSpace l) = collapseSpacesAux false (trimSpace l)),
              hh] at hc
            injection hc with hc
            subst hc
            exact hc₀
      unfold processLine
      simp only [htr, if_true]
      rw [htrim]
      simp [hre, hmne, collapseSpaces_idem (trimSpace l)]
  · -- trim only
    have h1 : processLine tc l = trimSpace l := by
      unfold processLine; simp [htr, hre]
    rw [h1]
    unfold processLine
    simp [htr, hre, trimSpace_idem]
  · -- collapse only
    by_cases hl : l = []
    · subst hl
      rw [processLine_nil, processLine_nil]
    · have h1 : processLine tc l = collapseSpaces l := by
        unfold processLine
        simp [htr, hre, hl]
      rw [h1]
      have hne := collapseSpaces_ne_nil hl
      unfold processLine
      simp [htr, hre, hne, collapseSpaces_idem l]
  · -- neither
    have h1 : ∀ x, processLine tc x = x := by
      intro x; unfold processLine; simp [htr, hre]
    rw [h1, h1]

/-- Every character of a processed line is an original character or a
replacement space. -/
theorem mem_processLine {tc : TextCleaner} {l : GoStr} {c : Char}
    (h : c ∈ processLine tc l) : c ∈ l ∨ c = ' ' := by
  unfold processLine at h
  by_cases htr : tc.trimSpaces = true <;> simp only [htr, if_true, Bool.false_eq_true,
    if_false] at h
  · by_cases hcond : tc.removeExtraSpaces = true ∧ trimSpace l ≠ []
    · rw [if_pos hcond] at h
      rcases mem_collapseSpacesAux (trimSpace l) false c h with h' | h'
      · exact Or.inl (mem_trimSpace h')
      · exact Or.inr h'
    · rw [if_neg hcond] at h
      exact Or.inl (mem_trimSpace h)
  · by_cases hcond : tc.removeExtraSpaces = true ∧ l ≠ []
    · rw [if_pos hcond] at h
      exact mem_collapseSpacesAux l false c h
    · rw [if_neg hcond] at h
      exact Or.inl h

/-! ### Splitting and joining on line feeds -/

/-- Splitting always yields at least one piece. -/
theorem splitOnNl_ne_nil : ∀ (t : List Char), splitOnNl t ≠ [] := by
  intro t
  induction t with
  | nil => simp [splitOnNl]
  | cons c rest ih =>
    by_cases hc : c = '\n'
    · simp [splitOnNl, hc]
    · simp only [splitOnNl, if_neg hc]
      cases hs : splitOnNl rest with
      | nil => exact absurd hs ih
      | cons a as => simp

/-- Pieces of `splitOnNl` contain no line feed. -/
theorem not_nl_mem_splitOnNl : ∀ (t : List Char) (m : GoStr),
    m ∈ splitOnNl t → '\n' ∉ m := by
  intro t
  induction t with
  | nil =>
    intro m hm
    simp only [splitOnNl, List.mem_singleton] at hm
    subst hm
    simp
  | cons c rest ih =>
    intro m hm
    by_cases hc : c = '\n'
    · simp only [splitOnNl, if_pos hc, List.mem_cons] at hm
      rcases hm with h | h
      · subst h; simp
      · exact ih m h
    · simp only [splitOnNl, if_neg hc] at hm
      cases hs : splitOnNl rest with
      | nil => exact absurd hs (splitOnNl_ne_nil rest)
      | cons a as =>
        rw [hs] at hm
        simp only [List.modifyHead, List.mem_cons] at hm
        rcases hm with h | h
        · subst h
          intro hmem
          rcases List.mem_cons.mp hmem with h' | h'
          · exact hc h'.symm
          · exact ih a (hs ▸ List.mem_cons_self a as) h'
        · exact ih m (hs ▸ List.mem_cons_of_mem a h)

/-- Characters of the pieces of `splitOnNl` are characters of the input. -/
theorem mem_of_mem_splitOnNl : ∀ (t : List Char) (m : GoStr) (c : Char),
    m ∈ splitOnNl t → c ∈ m → c ∈ t := by
  intro t
  induction t with
  | nil =>
    intro m c hm hc
    simp only [splitOnNl, List.mem_singleton] at hm
    subst hm
    cases hc
  | cons d rest ih =>
    intro m c hm hc
    by_cases hd : d = '\n'
    · simp only [splitOnNl, if_pos hd, List.mem_cons] at hm
      rcases hm with h | h
      · subst h; cases hc
      · exact List.mem_cons_of_mem d (ih m c h hc)
    · simp only [splitOnNl, if_neg hd] at hm
      cases hs : splitOnNl rest with
      | nil => exact absurd hs (splitOnNl_ne_nil rest)
      | cons a as =>
        rw [hs] at hm
        simp only [List.modifyHead, List.mem_cons] at hm
        rcases hm with h | h
        · subst h
          rcases List.mem_cons.mp hc with h' | h'
          · exact h' ▸ List.mem_cons_self d rest
          · exact List.mem_cons_of_mem d (ih a c (hs ▸ List.mem_cons_self a as) h')
        · exact List.mem_cons_of_mem d (ih m c (hs ▸ List.mem_cons_of_mem a h) hc)

/-- Splitting a line-feed-free string yields that single piece. -/
theorem splitOnNl_of_not_mem : ∀ {l : List Char}, '\n' ∉ l → splitOnNl l = [l] := by
  intro l
  induction l with
  | nil => intro _; rfl
  | cons c rest ih =>
    intro h
    have hc : ¬ c = '\n' := fun hc => h (hc ▸ List.mem_cons_self c rest)
    have hrest : '\n' ∉ rest := fun hr => h (List.mem_cons_of_mem c hr)
    simp only [splitOnNl, if_neg hc, ih hrest, List.modifyHead]

/-- Splitting `l ++ '\n' :: r` for line-feed-free `l` peels off `l`. -/
theorem splitOnNl_append : ∀ {l : List Char} (r : List Char), '\n' ∉ l →
    splitOnNl (l ++ '\n' :: r) = l :: splitOnNl r := by
  intro l
  induction l with
  | nil => intro r _; simp [splitOnNl]
  | cons c rest ih =>
    intro r h
    have hc : ¬ c = '\n' := fun hc => h (hc ▸ List.mem_cons_self c rest)
    have hrest : '\n' ∉ rest := fun hr => h (List.mem_cons_of_mem c hr)
    simp only [List.cons_append, splitOnNl, if_neg hc, List.append_eq]
    rw [ih r hrest]
    rfl

/-- Joining a list with a non-empty tail. -/
theorem joinNl_cons_of_ne_nil (l : GoStr) {ls : List GoStr} (h : ls ≠ []) :
    joinNl (l :: ls) = l ++ '\n' :: joinNl ls := by
  cases ls with
  | nil => exact absurd rfl h
  | cons a as => rfl

/-- Splitting undoes joining on a non-empty list of line-feed-free lines. -/
theorem splitOnNl_joinNl : ∀ (ls : List GoStr), ls ≠ [] →
    (∀ m ∈ ls, '\n' ∉ m) → splitOnNl (joinNl ls) = ls := by
  intro ls
  induction ls with
  | nil => intro h _; exact absurd rfl h
  | cons l rest ih =>
    intro _ hnl
    cases hrest : rest with
    | nil =>
      show splitOnNl (joinNl [l]) = [l]
      show splitOnNl l = [l]
      exact splitOnNl_of_not_mem (hnl l (List.mem_cons_self l rest))
    | cons a as =>
      rw [← hrest, joinNl_cons_of_ne_nil l (by rw [hrest]; simp),
        splitOnNl_append _ (hnl l (List.mem_cons_self l rest)),
        ih (by rw [hrest]; simp) (fun m hm => hnl m (List.mem_cons_of_mem l hm))]

/-- Characters of a join are characters of the lines or the separator. -/
theorem mem_joinNl : ∀ (ls : List GoStr) (c : Char),
    c ∈ joinNl ls → (∃ m ∈ ls, c ∈ m) ∨ c = '\n' := by
  intro ls
  induction ls with
  | nil => intro c h; cases h
  | cons l rest ih =>
    intro c h
    by_cases hrest : rest = []
    · subst hrest
      exact Or.inl ⟨l, List.mem_cons_self l [], h⟩
    · rw [joinNl_cons_of_ne_nil l hrest] at h
      rcases List.mem_append.mp h with h' | h'
      · exact Or.inl ⟨l, List.mem_cons_self l rest, h'⟩
      · rcases List.mem_cons.mp h' with h'' | h''
        · exact Or.inr h''
        · rcases ih c h'' with ⟨m, hm, hc⟩ | h''
          · exact Or.inl ⟨m, List.mem_cons_of_mem l hm, hc⟩
          · exact Or.inr h''

/-- The head of a join is the head of its first line, when non-empty. -/
theorem joinNl_head? : ∀ (ls : List GoStr) (m : GoStr), ls.head? = some m →
    m ≠ [] → (joinNl ls).head? = m.head? := by
  intro ls
  cases ls with
  | nil => intro m h _; cases h
  | cons l rest =>
    intro m h hm
    simp only [List.head?_cons, Option.some.injEq] at h
    subst h
    cases rest with
    | nil => rfl
    | cons a as =>
      rw [joinNl_cons_of_ne_nil l (List.cons_ne_nil a as),
        List.head?_append_of_ne_nil _ hm]

/-- A join is non-empty when the last line exists and is non-empty. -/
theorem joinNl_ne_nil : ∀ (ls : List GoStr) (m : GoStr), ls.getLast? = some m →
    m ≠ [] → joinNl ls ≠ [] := by
  intro ls
  cases ls with
  | nil => intro m h _; cases h
  | cons l rest =>
    intro m h hm
    cases rest with
    | nil =>
      simp only [List.getLast?_singleton, Option.some.injEq] at h
      subst h
      simpa [joinNl] using hm
    | cons a as =>
      rw [joinNl_cons_of_ne_nil l (List.cons_ne_nil a as)]
      simp

/-- The last element of a join is the last element of its last line, when
that line is non-empty. -/
theorem joinNl_getLast? : ∀ (ls : List GoStr) (m : GoStr), ls.getLast? = some m →
    m ≠ [] → (joinNl ls).getLast? = m.getLast? := by
  intro ls
  induction ls with
  | nil => intro m h _; cases h
  | cons l rest ih =>
    intro m h hm
    by_cases hrne : rest = []
    · subst hrne
      simp only [List.getLast?_singleton, Option.some.injEq] at h
      subst h
      rfl
    · rw [getLast?_cons_ne l rest hrne] at h
      have hjoin : joinNl rest ≠ [] := joinNl_ne_nil rest m h hm
      rw [joinNl_cons_of_ne_nil l hrne,
        List.getLast?_append_of_ne_nil _ (by simp : ('\n' :: joinNl rest) ≠ []),
        getLast?_cons_ne '\n' (joinNl rest) hjoin]
      exact ih m h hm

/-! ### Line-break canonicalization -/

/-- Characters after the CRLF pass are characters of the input. -/
theorem mem_replaceCRLF : ∀ (l : GoStr) (c : Char), c ∈ replaceCRLF l → c ∈ l := by
  intro l
  induction l using replaceCRLF.induct with
  | case1 rest ih =>
    intro c hc
    rw [replaceCRLF] at hc
    rcases List.mem_cons.mp hc with h | h
    · subst h; simp
    · simp [ih c h]
  | case2 c rest h ih =>
    intro d hd
    rw [replaceCRLF.eq_def] at hd
    simp only at hd
    rcases List.mem_cons.mp hd with h' | h'
    · subst h'; simp
    · simp [ih d h']
  | case3 =>
    intro c hc
    rw [replaceCRLF] at hc
    cases hc

/-- The CRLF pass is the identity on inputs without a carriage return. -/
theorem replaceCRLF_eq_self : ∀ {l : GoStr}, '\r' ∉ l → replaceCRLF l = l := by
  intro l
  induction l using replaceCRLF.induct with
  | case1 rest ih =>
    intro h
    exact absurd (List.mem_cons_self _ _) h
  | case2 c rest h ih =>
    intro hl
    have hrest : '\r' ∉ rest := fun hr => hl (List.mem_cons_of_mem c hr)
    rw [replaceCRLF.eq_def]
    simp only
    rw [ih hrest]
  | case3 =>
    intro _; rfl

/-- Canonicalization leaves no carriage return in the output. -/
theorem not_cr_mem_normalize (l : GoStr) : '\r' ∉ normalizeLineBreaksGo l := by
  unfold normalizeLineBreaksGo
  intro h
  rcases List.mem_map.mp h with ⟨c, _, hc⟩
  by_cases hcc : c = '\r' <;> simp [hcc] at hc

/-- Characters after canonicalization are input characters or line feeds. -/
theorem mem_normalize {l : GoStr} {c : Char} (h : c ∈ normalizeLineBreaksGo l) :
    c ∈ l ∨ c = '\n' := by
  unfold normalizeLineBreaksGo at h
  rcases List.mem_map.mp h with ⟨d, hd, hdc⟩
  by_cases hdr : d = '\r'
  · rw [if_pos hdr] at hdc
    exact Or.inr hdc.symm
  · rw [if_neg hdr] at hdc
    exact Or.inl (hdc ▸ mem_replaceCRLF l d hd)

/-- Canonicalization is the identity on inputs without a carriage return. -/
theorem normalize_eq_self {l : GoStr} (h : '\r' ∉ l) :
    normalizeLineBreaksGo l = l := by
  unfold normalizeLineBreaksGo
  rw [replaceCRLF_eq_self h]
  have : ∀ c ∈ l, (if c = '\r' then '\n' else c) = c := by
    intro c hc
    rw [if_neg (show ¬ c = '\r' from fun hcc => h (hcc ▸ hc))]
  calc l.map (fun c => if c = '\r' then '\n' else c) = l.map id := List.map_congr_left this
    _ = l := List.map_id l

/-! ### The blank-run logic of the line loop -/

/-- One step of `cleanLoop`, with the three skip conditions packaged as
`keepBlankB`. -/
theorem cleanLoop_cons (tc : TextCleaner) (count : Int) (line : GoStr)
    (rest : List GoStr) :
    cleanLoop tc count (line :: rest) =
      if processLine tc line = [] then
        (if keepBlankB tc (count + 1) = true then
          processLine tc line :: cleanLoop tc (count + 1) rest
        else cleanLoop tc (count + 1) rest)
      else processLine tc line :: cleanLoop tc 0 rest := by
  show (if processLine tc line = [] then _ else _) = _
  by_cases hl : processLine tc line = []
  · rw [if_pos hl, if_pos hl]
    unfold keepBlankB
    by_cases h1 : tc.maxConsecutiveBlankLines = 0
    · rw [if_pos h1, if_pos h1, if_neg (by simp)]
    · rw [if_neg h1, if_neg h1]
      by_cases h2 : tc.maxConsecutiveBlankLines > 0 ∧
          count + 1 > tc.maxConsecutiveBlankLines
      · rw [if_pos h2, if_pos h2, if_neg (by simp)]
      · rw [if_neg h2, if_neg h2]
        by_cases h3 : tc.removeExtraBlankLines = true ∧ count + 1 > 1 ∧
            tc.maxConsecutiveBlankLines ≠ -1
        · rw [if_pos h3, if_pos h3, if_neg (by simp)]
        · rw [if_neg h3, if_neg h3, if_pos rfl]
  · rw [if_neg hl, if_neg hl]

/-- Keeping a blank at a larger counter value implies keeping it at any
smaller positive counter value. -/
theorem keepBlankB_anti (tc : TextCleaner) {a b : Int} (ha : 1 ≤ a) (hab : a ≤ b)
    (h : keepBlankB tc b = true) : keepBlankB tc a = true := by
  unfold keepBlankB at h ⊢
  by_cases h0 : tc.maxConsecutiveBlankLines = 0
  · rw [if_pos h0] at h; cases h
  · rw [if_neg h0] at h ⊢
    by_cases hb2 : tc.maxConsecutiveBlankLines > 0 ∧ b > tc.maxConsecutiveBlankLines
    · rw [if_pos hb2] at h; cases h
    · rw [if_neg hb2] at h
      have ha2 : ¬ (tc.maxConsecutiveBlankLines > 0 ∧ a > tc.maxConsecutiveBlankLines) := by
        intro hc
        exact hb2 ⟨hc.1, by have := hc.2; omega⟩
      rw [if_neg ha2]
      by_cases hb3 : tc.removeExtraBlankLines = true ∧ b > 1 ∧
          tc.maxConsecutiveBlankLines ≠ -1
      · rw [if_pos hb3] at h; cases h
      · have ha3 : ¬ (tc.removeExtraBlankLines = true ∧ a > 1 ∧
            tc.maxConsecutiveBlankLines ≠ -1) := by
          intro hc
          exact hb3 ⟨hc.1, by have := hc.2.1; omega, hc.2.2⟩
        rw [if_neg ha3]

/-- Unfolding `runsOK` at a blank head. -/
theorem runsOK_cons_blank (tc : TextCleaner) (c : Int) (ls : List GoStr) :
    runsOK tc c ([] :: ls) ↔ (keepBlankB tc (c + 1) = true ∧ runsOK tc (c + 1) ls) := by
  simp [runsOK]

/-- Unfolding `runsOK` at a non-blank head. -/
theorem runsOK_cons_nonblank (tc : TextCleaner) (c : Int) {l : GoStr}
    (h : l ≠ []) (ls : List GoStr) : runsOK tc c (l :: ls) ↔ runsOK tc 0 ls := by
  simp [runsOK, h]

/-- A line sequence whose blank runs pass the retention test, made of lines
that the per-line transformation fixes, passes through the loop unchanged. -/
theorem cleanLoop_eq_self (tc : TextCleaner) :
    ∀ (ls : List GoStr) (c : Int), runsOK tc c ls →
      (∀ l ∈ ls, processLine tc l = l) → cleanLoop tc c ls = ls := by
  intro ls
  induction ls with
  | nil => intro c _ _; rfl
  | cons l rest ih =>
    intro c hok hfix
    have hl : processLine tc l = l := hfix l (List.mem_cons_self l rest)
    rw [cleanLoop_cons, hl]
    by_cases hblank : l = []
    · subst hblank
      rw [runsOK_cons_blank] at hok
      rw [if_pos rfl, if_pos hok.1,
        ih (c + 1) hok.2 (fun m hm => hfix m (List.mem_cons_of_mem _ hm))]
    · rw [if_neg hblank,
        ih 0 ((runsOK_cons_nonblank tc c hblank rest).mp hok)
          (fun m hm => hfix m (List.mem_cons_of_mem _ hm))]

/-- The loop's output satisfies `runsOK` from any start value at most the
loop's own counter (blanks in the output were kept at counter values at
least their position inside their run). -/
theorem runsOK_cleanLoop (tc : TextCleaner) :
    ∀ (ls : List GoStr) (c j : Int), 0 ≤ j → j ≤ c →
      runsOK tc j (cleanLoop tc c ls) := by
  intro ls
  induction ls with
  | nil => intro c j _ _; exact trivial
  | cons l rest ih =>
    intro c j hj0 hjc
    rw [cleanLoop_cons]
    by_cases hblank : processLine tc l = []
    · rw [if_pos hblank]
      by_cases hk : keepBlankB tc (c + 1) = true
      · rw [if_pos hk, hblank, runsOK_cons_blank]
        exact ⟨keepBlankB_anti tc (by omega) (by omega) hk,
          ih (c + 1) (j + 1) (by omega) (by omega)⟩
      · rw [if_neg hk]
        exact ih (c + 1) j hj0 (by omega)
    · rw [if_neg hblank, runsOK_cons_nonblank tc j hblank]
      exact ih 0 0 le_rfl le_rfl

/-- The invariant `runsOK` survives dropping the leading blank run, from any counter. -/
theorem runsOK_dropWhile (tc : TextCleaner) :
    ∀ (ls : List GoStr) (c : Int), runsOK tc c ls →
      ∀ c', runsOK tc c' (ls.dropWhile (· = [])) := by
  intro ls
  induction ls with
  | nil => intro c _ c'; exact trivial
  | cons l rest ih =>
    intro c hok c'
    by_cases hblank : l = []
    · subst hblank
      rw [runsOK_cons_blank] at hok
      rw [List.dropWhile_cons, if_pos (by simp)]
      exact ih (c + 1) hok.2 c'
    · rw [List.dropWhile_cons, if_neg (by simp [hblank])]
      rw [runsOK_cons_nonblank tc c' hblank]
      exact (runsOK_cons_nonblank tc c hblank rest).mp hok

/-- The invariant `runsOK` is inherited by an initial segment of the lines. -/
theorem runsOK_initial (tc : TextCleaner) :
    ∀ (a b : List GoStr) (c : Int), runsOK tc c (a ++ b) → runsOK tc c a := by
  intro a
  induction a with
  | nil => intro b c _; exact trivial
  | cons l a' ih =>
    intro b c hok
    by_cases hblank : l = []
    · subst hblank
      rw [List.cons_append, runsOK_cons_blank] at hok
      rw [runsOK_cons_blank]
      exact ⟨hok.1, ih b (c + 1) hok.2⟩
    · rw [List.cons_append, runsOK_cons_nonblank tc c hblank] at hok
      rw [runsOK_cons_nonblank tc c hblank]
      exact ih b 0 hok

/-- Every line the loop emits is the image of an input line under the
per-line transformation. -/
theorem mem_cleanLoop (tc : TextCleaner) :
    ∀ (ls : List GoStr) (c : Int) (m : GoStr), m ∈ cleanLoop tc c ls →
      ∃ l ∈ ls, m = processLine tc l := by
  intro ls
  induction ls with
  | nil => intro c m h; cases h
  | cons l rest ih =>
    intro c m h
    rw [cleanLoop_cons] at h
    by_cases hblank : processLine tc l = []
    · rw [if_pos hblank] at h
      by_cases hk : keepBlankB tc (c + 1) = true
      · rw [if_pos hk] at h
        rcases List.mem_cons.mp h with h' | h'
        · exact ⟨l, List.mem_cons_self l rest, h'⟩
        · rcases ih (c + 1) m h' with ⟨l', hl', hm⟩
          exact ⟨l', List.mem_cons_of_mem l hl', hm⟩
      · rw [if_neg hk] at h
        rcases ih (c + 1) m h with ⟨l', hl', hm⟩
        exact ⟨l', List.mem_cons_of_mem l hl', hm⟩
    · rw [if_neg hblank] at h
      rcases List.mem_cons.mp h with h' | h'
      · exact ⟨l, List.mem_cons_self l rest, h'⟩
      · rcases ih 0 m h' with ⟨l', hl', hm⟩
        exact ⟨l', List.mem_cons_of_mem l hl', hm⟩

/-! ### Boundary trimming -/

/-- The leading-blank drop decomposes as the trimmed core plus the trailing
blank run. -/
theorem trimEmptyLines_decomp (ls : List GoStr) :
    ls.dropWhile (· = []) =
      trimEmptyLines ls ++
        ((ls.dropWhile (· = [])).reverse.takeWhile (· = [])).reverse := by
  unfold trimEmptyLines
  set A := ls.dropWhile (· = []) with hA
  set B := A.reverse.dropWhile (· = []) with hB
  have h0 : A.reverse.takeWhile (· = []) ++ B = A.reverse := by
    rw [hB]; exact List.takeWhile_append_dropWhile _ A.reverse
  calc A = A.reverse.reverse := (List.reverse_reverse A).symm
    _ = (A.reverse.takeWhile (· = []) ++ B).reverse := by rw [h0]
    _ = B.reverse ++ (A.reverse.takeWhile (· = [])).reverse := by rw [List.reverse_append]

/-- Lines of the trimmed sequence are lines of the input. -/
theorem mem_trimEmptyLines {ls : List GoStr} {m : GoStr}
    (h : m ∈ trimEmptyLines ls) : m ∈ ls := by
  unfold trimEmptyLines at h
  rw [List.mem_reverse] at h
  have h1 := (List.dropWhile_sublist (l := (ls.dropWhile (· = [])).reverse)
    (p := (· = []))).subset h
  rw [List.mem_reverse] at h1
  exact (List.dropWhile_sublist (l := ls) (p := (· = []))).subset h1

/-- The first line after boundary trimming is non-blank. -/
theorem trimEmptyLines_head?_ne {ls : List GoStr} {m : GoStr}
    (h : (trimEmptyLines ls).head? = some m) : m ≠ [] := by
  have hne : trimEmptyLines ls ≠ [] := by
    intro h0; rw [h0] at h; cases h
  have hdecomp := trimEmptyLines_decomp ls
  have hheadA : (ls.dropWhile (· = [])).head? = some m := by
    rw [hdecomp, List.head?_append_of_ne_nil _ hne]
    exact h
  have := dropWhile_head?_not hheadA
  simpa using this

/-- The last line after boundary trimming is non-blank. -/
theorem trimEmptyLines_getLast?_ne {ls : List GoStr} {m : GoStr}
    (h : (trimEmptyLines ls).getLast? = some m) : m ≠ [] := by
  unfold trimEmptyLines at h
  rw [List.getLast?_reverse] at h
  have := dropWhile_head?_not h
  simpa using this

/-- Boundary trimming is the identity when the first and last lines are
already non-blank. -/
theorem trimEmptyLines_eq_self {ls : List GoStr}
    (hh : ∀ m, ls.head? = some m → m ≠ [])
    (hl : ∀ m, ls.getLast? = some m → m ≠ []) : trimEmptyLines ls = ls := by
  unfold trimEmptyLines
  have h1 : List.dropWhile (· = []) ls = ls :=
    dropWhile_eq_self_of_head (fun a ha => by simpa using hh a ha)
  rw [h1]
  have h2 : List.dropWhile (· = []) ls.reverse = ls.reverse :=
    dropWhile_eq_self_of_head (fun a ha => by
      rw [List.head?_reverse] at ha
      simpa using hl a ha)
  rw [h2, List.reverse_reverse]

/-- The invariant `runsOK` survives boundary trimming (restarting the counter at 0). -/
theorem runsOK_trimEmptyLines (tc : TextCleaner) (ls : List GoStr) (c : Int)
    (h : runsOK tc c ls) : runsOK tc 0 (trimEmptyLines ls) := by
  have h1 : runsOK tc 0 (ls.dropWhile (· = [])) := runsOK_dropWhile tc ls c h 0
  rw [trimEmptyLines_decomp ls] at h1
  exact runsOK_initial tc _ _ 0 h1

/-- A list head is a member. -/
theorem mem_of_head?_some {α : Type} {l : List α} {a : α} (h : l.head? = some a) :
    a ∈ l := by
  cases l with
  | nil => cases h
  | cons x xs =>
    simp only [List.head?_cons, Option.some.injEq] at h
    exact h ▸ List.mem_cons_self x xs

/-- A list last element is a member. -/
theorem mem_of_getLast?_some {α : Type} {l : List α} {a : α}
    (h : l.getLast? = some a) : a ∈ l := by
  have := List.dropLast_append_getLast? a (by rw [h]; rfl)
  rw [← this]
  simp

/-! ### Assembling the normalizer pipeline -/

/-- For non-empty input, `Clean` is the join of the line pipeline. -/
theorem Clean_eq (tc : TextCleaner) (isPrint : Char → Bool) {text : GoStr}
    (h : text ≠ []) :
    tc.Clean isPrint text = joinNl (cleanPipeline tc isPrint text) := by
  unfold TextCleaner.Clean cleanPipeline
  rw [if_neg h]

/-- Pipeline lines contain no line feed. -/
theorem cleanPipeline_no_nl (tc : TextCleaner) (isPrint : Char → Bool) (x : GoStr) :
    ∀ m ∈ cleanPipeline tc isPrint x, '\n' ∉ m := by
  intro m hm
  unfold cleanPipeline at hm
  rcases mem_cleanLoop tc _ 0 m (mem_trimEmptyLines hm) with ⟨l, hl, rfl⟩
  intro hnl
  rcases mem_processLine hnl with h' | h'
  · exact not_nl_mem_splitOnNl _ l hl h'
  · exact absurd h' (by decide)

/-- Characters of pipeline lines come from the canonicalized text or are
replacement spaces. -/
theorem cleanPipeline_char {tc : TextCleaner} {isPrint : Char → Bool} {x : GoStr}
    {m : GoStr} {c : Char} (hm : m ∈ cleanPipeline tc isPrint x) (hc : c ∈ m) :
    c ∈ normalizeLineBreaksGo
        (if tc.removeControlChars then removeControlCharsGo isPrint x else x) ∨
      c = ' ' := by
  unfold cleanPipeline at hm
  rcases mem_cleanLoop tc _ 0 m (mem_trimEmptyLines hm) with ⟨l, hl, rfl⟩
  rcases mem_processLine hc with h' | h'
  · exact Or.inl (mem_of_mem_splitOnNl _ l c hl h')
  · exact Or.inr h'

/-- Pipeline lines contain no carriage return. -/
theorem cleanPipeline_no_cr (tc : TextCleaner) (isPrint : Char → Bool) (x : GoStr) :
    ∀ m ∈ cleanPipeline tc isPrint x, '\r' ∉ m := by
  intro m hm hcr
  rcases cleanPipeline_char hm hcr with h | h
  · exact not_cr_mem_normalize _ h
  · exact absurd h (by decide)

/-- The heart of idempotence: running the pipeline on the joined output of a
first pipeline run reproduces that output (provided the external `isPrint`
accepts the space character, as `unicode.IsPrint` does). -/
theorem cleanPipeline_fixed (tc : TextCleaner) (isPrint : Char → Bool) (x : GoStr)
    (hsp : isPrint ' ' = true)
    (hne : cleanPipeline tc isPrint x ≠ []) :
    cleanPipeline tc isPrint (joinNl (cleanPipeline tc isPrint x)) =
      cleanPipeline tc isPrint x := by
  have hynl : ∀ m ∈ cleanPipeline tc isPrint x, '\n' ∉ m :=
    cleanPipeline_no_nl tc isPrint x
  have hycr : '\r' ∉ joinNl (cleanPipeline tc isPrint x) := by
    intro h
    rcases mem_joinNl _ '\r' h with ⟨m, hm, hc⟩ | h'
    · exact cleanPipeline_no_cr tc isPrint x m hm hc
    · exact absurd h' (by decide)
  have ht1 : (if tc.removeControlChars then
        removeControlCharsGo isPrint (joinNl (cleanPipeline tc isPrint x))
      else joinNl (cleanPipeline tc isPrint x)) =
      joinNl (cleanPipeline tc isPrint x) := by
    by_cases hrcc : tc.removeControlChars = true
    · rw [if_pos hrcc]
      unfold removeControlCharsGo
      apply List.filter_eq_self.mpr
      intro c hcy
      rcases mem_joinNl _ c hcy with ⟨m, hm, hc⟩ | h'
      · rcases cleanPipeline_char hm hc with h1 | h1
        · rcases mem_normalize h1 with h2 | h2
          · rw [if_pos hrcc] at h2
            exact List.of_mem_filter h2
          · subst h2; simp [keepChar]
        · subst h1; simp [keepChar, hsp]
      · subst h'; simp [keepChar]
    · rw [if_neg hrcc]
  have ht2 : normalizeLineBreaksGo (joinNl (cleanPipeline tc isPrint x)) =
      joinNl (cleanPipeline tc isPrint x) := normalize_eq_self hycr
  have ht3 : splitOnNl (joinNl (cleanPipeline tc isPrint x)) =
      cleanPipeline tc isPrint x := splitOnNl_joinNl _ hne hynl
  have hrun : runsOK tc 0 (cleanPipeline tc isPrint x) := by
    unfold cleanPipeline
    exact runsOK_trimEmptyLines tc _ 0 (runsOK_cleanLoop tc _ 0 0 le_rfl le_rfl)
  have hfix : ∀ m ∈ cleanPipeline tc isPrint x, processLine tc m = m := by
    intro m hm
    unfold cleanPipeline at hm
    rcases mem_cleanLoop tc _ 0 m (mem_trimEmptyLines hm) with ⟨l, _, rfl⟩
    exact processLine_idem tc l
  have ht4 : cleanLoop tc 0 (cleanPipeline tc isPrint x) =
      cleanPipeline tc isPrint x := cleanLoop_eq_self tc _ 0 hrun hfix
  have ht5 : trimEmptyLines (cleanPipeline tc isPrint x) =
      cleanPipeline tc isPrint x := by
    apply trimEmptyLines_eq_self
    · intro m hm
      unfold cleanPipeline at hm
      exact trimEmptyLines_head?_ne hm
    · intro m hm
      unfold cleanPipeline at hm
      exact trimEmptyLines_getLast?_ne hm
  conv_lhs => rw [cleanPipeline]
  rw [ht1, ht2, ht3, ht4, ht5]

/-! ### Claim C1 -/

/-- C1: `Clean` is idempotent — for every option set and every input, the
second application is a no-op.  The only assumption on the external
`unicode.IsPrint` predicate is that it accepts the ASCII space, which it
does (Go's `IsPrint` includes `U+0020`). -/
theorem C1_clean_idempotent (tc : TextCleaner) (isPrint : Char → Bool) (x : GoStr)
    (hsp : isPrint ' ' = true) :
    tc.Clean isPrint (tc.Clean isPrint x) = tc.Clean isPrint x := by
  by_cases hy : tc.Clean isPrint x = []
  · rw [hy]
    rfl
  · have hx : x ≠ [] := by
      intro hxx
      apply hy
      rw [hxx]
      rfl
    have hrep : tc.Clean isPrint x = joinNl (cleanPipeline tc isPrint x) :=
      Clean_eq tc isPrint hx
    have hne : cleanPipeline tc isPrint x ≠ [] := by
      intro h0
      apply hy
      rw [hrep, h0]
      rfl
    have hyne : joinNl (cleanPipeline tc isPrint x) ≠ [] := by
      rw [← hrep]; exact hy
    rw [hrep, Clean_eq tc isPrint hyne, cleanPipeline_fixed tc isPrint x hsp hne]

/-- C1 witness: the default cleaner on a concrete messy string. -/
theorem C1_witness :
    isPrintAll ' ' = true ∧
    DefaultTextCleaner.Clean isPrintAll
        (DefaultTextCleaner.Clean isPrintAll ("  a \n\n\n b\t c ".toList)) =
      DefaultTextCleaner.Clean isPrintAll ("  a \n\n\n b\t c ".toList) :=
  ⟨rfl, C1_clean_idempotent DefaultTextCleaner isPrintAll ("  a \n\n\n b\t c ".toList) rfl⟩

/-! ### Claim C2 -/

/-- C2: the claim says any negative `MaxConsecutiveBlankLines` means
unlimited — no interior blank line is ever dropped.  The code's own comment
above the third skip condition says the same (`MaxConsecutiveBlankLines < 0
means no limit`), but the condition tests `!= -1`, so with
`RemoveExtraBlankLines` set and `MaxConsecutiveBlankLines = -2` the interior
run of `"a\n\n\nb"` is collapsed to a single blank line: the code returns
`"a\n\nb"`, not `"a\n\n\nb"`. -/
theorem C2_negative_not_unlimited :
    cleanerNegTwo.Clean isPrintAll ("a\n\n\nb".toList) = "a\n\nb".toList ∧
    cleanerNegTwo.Clean isPrintAll ("a\n\n\nb".toList) ≠ "a\n\n\nb".toList := by
  constructor
  · decide
  · decide

/-! ### Claim C8 -/

/-- C8: the output of `Clean` never starts and never ends with an empty line
(as a string: it neither starts nor ends with a line feed), and boundary
trimming of an all-blank line sequence yields the empty sequence (so an
all-blank input cleans to the empty string). -/
theorem C8_boundary_trim (tc : TextCleaner) (isPrint : Char → Bool) (x : GoStr)
    (ls : List GoStr) :
    ((tc.Clean isPrint x).head? ≠ some '\n' ∧
      (tc.Clean isPrint x).getLast? ≠ some '\n') ∧
    ((∀ l ∈ ls, l = []) → trimEmptyLines ls = []) := by
  constructor
  · by_cases hx : x = []
    · rw [hx]
      exact ⟨by simp [TextCleaner.Clean], by simp [TextCleaner.Clean]⟩
    · rw [Clean_eq tc isPrint hx]
      by_cases hne : cleanPipeline tc isPrint x = []
      · rw [hne]
        exact ⟨by simp [joinNl], by simp [joinNl]⟩
      · constructor
        · cases hh : (cleanPipeline tc isPrint x).head? with
          | none =>
            rw [List.head?_eq_none_iff] at hh
            exact absurd hh hne
          | some m =>
            have hm : m ≠ [] := by
              have := hh
              unfold cleanPipeline at this
              exact trimEmptyLines_head?_ne this
            rw [joinNl_head? _ m hh hm]
            intro hcontra
            exact cleanPipeline_no_nl tc isPrint x m (mem_of_head?_some hh)
              (mem_of_head?_some hcontra)
        · cases hh : (cleanPipeline tc isPrint x).getLast? with
          | none =>
            rw [List.getLast?_eq_none_iff] at hh
            exact absurd hh hne
          | some m =>
            have hm : m ≠ [] := by
              have := hh
              unfold cleanPipeline at this
              exact trimEmptyLines_getLast?_ne this
            rw [joinNl_getLast? _ m hh hm]
            intro hcontra
            exact cleanPipeline_no_nl tc isPrint x m (mem_of_getLast?_some hh)
              (mem_of_getLast?_some hcontra)
  · intro hall
    have h1 : ls.dropWhile (· = []) = [] := by
      rw [List.dropWhile_eq_nil_iff]
      intro a ha
      simp [hall a ha]
    unfold trimEmptyLines
    rw [h1]
    rfl

/-- C8 witness: the default cleaner on a string with leading and trailing
blank runs, and boundary trimming of an all-blank sequence. -/
theorem C8_witness :
    (∀ l ∈ [([] : GoStr), []], l = []) ∧
    (((DefaultTextCleaner.Clean isPrintAll ("\n\n a \n\n".toList)).head? ≠ some '\n' ∧
      (DefaultTextCleaner.Clean isPrintAll ("\n\n a \n\n".toList)).getLast? ≠ some '\n') ∧
    trimEmptyLines [([] : GoStr), []] = []) :=
  ⟨by decide,
    (C8_boundary_trim DefaultTextCleaner isPrintAll ("\n\n a \n\n".toList)
        [([] : GoStr), []]).1,
    (C8_boundary_trim DefaultTextCleaner isPrintAll ("\n\n a \n\n".toList)
        [([] : GoStr), []]).2 (by decide)⟩

end DocReader
